import Mathlib

/-!
Shallow embedding of the small relational data-access layer built by the
database-tutorial notebooks (`04_orm_relationships.ipynb` and the filled
`03_building_relational_sqlmodel.ipynb`, together with the raw-sqlite
walkthrough bundled with it).

The embedding models:
* the table rows declared by the SQLModel classes `Article`, `Author`,
  `Keyword`, `ArticleKeyword`, `ArticleAuthor`;
* the sqlite store as explicit lists of rows plus autoincrement counters;
* the per-paper Session insert loop of the relationships notebook
  (lower-casing, lookup-or-create of keywords via `one_or_none`, a single
  commit per paper enforcing the PRIMARY KEY and UNIQUE constraints);
* the keyword-substring query
  `select(Article).where(Article.keywords.any(Keyword.keyword.contains(s)))`;
* `SQLModel.metadata.create_all` / `CREATE TABLE IF NOT EXISTS`;
* the raw `INSERT INTO article_keywords` statement;
* the `remove_db` convenience helper over a file-system state.
-/

namespace DBTut

/-- Decidable equality for `Except`, so concrete runs can be checked by `decide`. -/
instance {ε α : Type} [DecidableEq ε] [DecidableEq α] : DecidableEq (Except ε α) := fun a b =>
  match a, b with
  | .ok x, .ok y =>
    if h : x = y then .isTrue (by rw [h]) else .isFalse (by intro hc; cases hc; exact h rfl)
  | .error x, .error y =>
    if h : x = y then .isTrue (by rw [h]) else .isFalse (by intro hc; cases hc; exact h rfl)
  | .ok _, .error _ => .isFalse (by intro hc; cases hc)
  | .error _, .ok _ => .isFalse (by intro hc; cases hc)

/-- Python's `str.lower`, as applied by `keyword.lower()` in the notebooks. -/
def lowerStr (s : String) : String := ⟨s.data.map Char.toLower⟩

/-- Character comparison used by sqlite's default `LIKE`: equality up to ASCII
case (`Char.toLower` folds exactly the ASCII range A-Z, as sqlite does). -/
def likeCharEq (a b : Char) : Bool := a.toLower == b.toLower

/-- Whether a `LIKE` pattern matches the empty string: only when it consists
entirely of `%` wildcards. -/
def likeEmpty : List Char → Bool
  | [] => true
  | a :: ps => a == '%' && likeEmpty ps

/-- One step of `LIKE` matching against a non-empty string with head `c`:
`mt` decides whether a pattern matches the tail of the string.  A `%` matches
zero characters (keep matching the rest of the pattern here) or at least one
(drop the head and keep the whole pattern); `_` consumes exactly one
character; any other pattern character must equal `c` up to ASCII case. -/
def likeHead (mt : List Char → Bool) (c : Char) : List Char → Bool
  | [] => false
  | a :: ps =>
    if a = '%' then likeHead mt c ps || mt (a :: ps)
    else if a = '_' then mt ps
    else likeCharEq a c && mt ps

/-- `LIKE` matching, by recursion on the string (second pattern argument of
`likeMatch`). -/
def likeGo : List Char → List Char → Bool
  | [], p => likeEmpty p
  | c :: t, p => likeHead (fun q => likeGo t q) c p

/-- Sqlite `LIKE`: does pattern `p` match string `s`?  Default sqlite
semantics: ASCII-case-insensitive comparison, `%` matches any sequence of
characters, `_` matches any single character. -/
def likeMatch (p s : List Char) : Bool := likeGo s p

/-- The sentence of the original claim, stated from the spec's words for
comparison with the `LIKE`-based code: the text literally (case-sensitively,
with no wildcards) contains the needle as a contiguous segment. -/
def specLiteralContains (needle : List Char) : List Char → Bool
  | [] => needle.isEmpty
  | c :: t => needle.isPrefixOf (c :: t) || specLiteralContains needle t

/-- Row of the `article` table (`class Article(SQLModel, table=True)`):
`doi` is the primary key, `abstract` is optional. -/
structure Article where
  doi : String
  title : String
  publication_year : Int
  abstract : Option String
deriving DecidableEq, Repr

/-- Row of the `author` table (`class Author(SQLModel, table=True)`):
autoincrement integer primary key `id`. -/
structure Author where
  id : Nat
  first_name : String
  last_name : String
  affiliation : Option String
deriving DecidableEq, Repr

/-- Row of the `keyword` table (`class Keyword(SQLModel, table=True)`):
autoincrement integer primary key `id`; `keyword` is declared
`Field(unique=True, index=True)`. -/
structure Keyword where
  id : Nat
  keyword : String
deriving DecidableEq, Repr

/-- Row of the `articlekeyword` association table: composite primary key
`(article_doi, keyword_id)`, each column a foreign key. -/
structure ArticleKeyword where
  article_doi : String
  keyword_id : Nat
deriving DecidableEq, Repr

/-- Row of the `articleauthor` association table: composite primary key
`(article_doi, author_id)`, each column a foreign key. -/
structure ArticleAuthor where
  article_doi : String
  author_id : Nat
deriving DecidableEq, Repr

/-- The sqlite store: one list of rows per table, plus the autoincrement
counters that generate the integer primary keys. -/
structure DB where
  articles : List Article
  authors : List Author
  keywords : List Keyword
  articleKeywords : List ArticleKeyword
  articleAuthors : List ArticleAuthor
  nextKeywordId : Nat
  nextAuthorId : Nat
deriving DecidableEq, Repr

/-- The store right after `remove_db()` and schema creation: every table empty. -/
def emptyDB : DB := ⟨[], [], [], [], [], 0, 0⟩

/-- Constraint violations and result-shape errors signalled by sqlite /
SQLAlchemy; they propagate to the caller, nothing is recovered locally. -/
inductive DBError where
  | primaryKeyViolation
  | uniqueViolation
  | multipleResults
deriving DecidableEq, Repr

/-- SQLAlchemy's `Result.one_or_none()`: `None` for no row, the row when there
is exactly one, and an error when the result has several rows. -/
def one_or_none {α : Type} (rows : List α) : Except DBError (Option α) :=
  match rows with
  | [] => .ok none
  | [r] => .ok (some r)
  | _ => .error .multipleResults

/-- One iteration of the keyword loop in the Session insert loop of
`04_orm_relationships.ipynb`: lower-case the incoming keyword text, run
`select(Keyword).where(Keyword.keyword == keyword)` with `one_or_none`, keep
the existing row when found, and otherwise build a fresh
`Keyword(keyword=keyword.lower())` object (no id yet: `Sum.inr` carries just
the text). -/
def resolveKeyword (db : DB) (kw : String) : Except DBError (Sum Keyword String) :=
  match one_or_none (db.keywords.filter (fun row => row.keyword == lowerStr kw)) with
  | .error e => .error e
  | .ok (some row) => .ok (Sum.inl row)
  | .ok none => .ok (Sum.inr (lowerStr (lowerStr kw)))

/-- The keyword loop of the Session insert loop, over the whole `keywords`
list of one paper record. -/
def resolveKeywords (db : DB) : List String → Except DBError (List (Sum Keyword String))
  | [] => .ok []
  | kw :: rest =>
    match resolveKeyword db kw, resolveKeywords db rest with
    | .ok r, .ok rs => .ok (r :: rs)
    | .error e, _ => .error e
    | .ok _, .error e => .error e

/-- The flush step of `session.commit()`: fresh keyword objects receive
consecutive autoincrement ids starting at `nextId`.  Returns the keyword
objects of the article's relationship list in order (existing rows keep their
id), the freshly inserted rows, and the next autoincrement value. -/
def assignIds (nextId : Nat) : List (Sum Keyword String) → List Keyword × List Keyword × Nat
  | [] => ([], [], nextId)
  | Sum.inl row :: rest =>
    let t := assignIds nextId rest
    (row :: t.1, t.2.1, t.2.2)
  | Sum.inr s :: rest =>
    let t := assignIds (nextId + 1) rest
    (⟨nextId, s⟩ :: t.1, ⟨nextId, s⟩ :: t.2.1, t.2.2)

/-- The fields of one `item` record of the input JSON that the loader reads
(`doi`, `title`, `abstract`, `keywords`), together with the published-date
information that the loader never touches. -/
structure PaperRecord where
  doi : String
  title : String
  abstract : Option String
  keywords : List String
  publishedDate : Option String
deriving DecidableEq, Repr

/-- One iteration of the Session insert loop of `04_orm_relationships.ipynb`:
resolve the keyword list (lookup-or-create), then
`Article(doi=..., title=..., publication_year=2024, abstract=..., keywords=...)`,
`session.add(article)`, `session.commit()`.  The commit writes the article row,
the fresh keyword rows, and one association row per keyword object of the
relationship, atomically, subject to the `doi` PRIMARY KEY, the `keyword`
UNIQUE constraint, and the composite PRIMARY KEY of `articlekeyword`; on a
violation the transaction fails and the store is unchanged. -/
def insertPaper (db : DB) (p : PaperRecord) : Except DBError DB :=
  match resolveKeywords db p.keywords with
  | .error e => .error e
  | .ok resolved =>
    let t := assignIds db.nextKeywordId resolved
    let kwObjs := t.1
    let fresh := t.2.1
    let links := kwObjs.map (fun k => ArticleKeyword.mk p.doi k.id)
    if ∃ a ∈ db.articles, a.doi = p.doi then
      .error .primaryKeyViolation
    else if ¬ ((fresh.map Keyword.keyword).Nodup ∧
               ∀ r ∈ fresh, ∀ k ∈ db.keywords, k.keyword ≠ r.keyword) then
      .error .uniqueViolation
    else if ¬ (links.Nodup ∧ ∀ l ∈ links, l ∉ db.articleKeywords) then
      .error .primaryKeyViolation
    else
      .ok { articles := db.articles ++ [⟨p.doi, p.title, 2024, p.abstract⟩],
            authors := db.authors,
            keywords := db.keywords ++ fresh,
            articleKeywords := db.articleKeywords ++ links,
            articleAuthors := db.articleAuthors,
            nextKeywordId := t.2.2,
            nextAuthorId := db.nextAuthorId }

/-- Run the Session insert loop over a list of paper records.  An error raised
by a commit propagates out of the `with Session(engine)` block and aborts the
loop, leaving the store at the last committed state. -/
def loadPapers (db : DB) : List PaperRecord → DB
  | [] => db
  | p :: ps =>
    match insertPaper db p with
    | .ok db' => loadPapers db' ps
    | .error _ => db

/-- The sequence of committed persistent states of one run of the loop: the
state before the loop and the state after each successful `session.commit()`.
A crash at any instant leaves the persistent store at one of these states,
since uncommitted work is lost. -/
def committedStates (db : DB) : List PaperRecord → List DB
  | [] => [db]
  | p :: ps =>
    match insertPaper db p with
    | .ok db' => db :: committedStates db' ps
    | .error _ => [db]

/-- `session.add(article); session.commit()` for a bare article (notebook 03):
an `INSERT INTO article` subject to the `doi` PRIMARY KEY constraint. -/
def insertArticle (db : DB) (a : Article) : Except DBError DB :=
  if ∃ r ∈ db.articles, r.doi = a.doi then .error .primaryKeyViolation
  else .ok { db with articles := db.articles ++ [a] }

/-- The raw associative insert of the sqlite walkthrough,
`INSERT INTO article_keywords (article_id, keyword_id) VALUES (?, ?)` executed
by `cursor.execute(associative_statement, (paper_id, result))`: a plain INSERT,
so sqlite raises an IntegrityError when the composite primary key
`(article_id, keyword_id)` already exists. -/
def insertAssociationRow (links : List ArticleKeyword) (l : ArticleKeyword) :
    Except DBError (List ArticleKeyword) :=
  if l ∈ links then .error .primaryKeyViolation
  else .ok (links ++ [l])

/-- Modelled from the spec: the author half of the insert/association helper is
not implemented in the notebooks (no author row is ever inserted there); per
the spec, authors are looked up by their identity fields. -/
def lookupAuthor (db : DB) (firstName lastName : String) (aff : Option String) : Option Author :=
  db.authors.find? (fun a =>
    a.first_name == firstName && a.last_name == lastName && a.affiliation == aff)

/-- Modelled from the spec: insert an association row joining the owning
article to the given author id, unless the composite key already exists
(duplicate association attempts tolerated silently). -/
def addAuthorLink (db : DB) (doi : String) (aid : Nat) : DB :=
  if ArticleAuthor.mk doi aid ∈ db.articleAuthors then db
  else { db with articleAuthors := db.articleAuthors ++ [ArticleAuthor.mk doi aid] }

/-- Modelled from the spec: the author linkage contract of the
insert/association helper.  Before inserting an author, look it up by its
identity fields; if absent, insert a new row and obtain the generated id; if
present, reuse the existing id; then insert the association row for the owning
article. -/
def linkAuthor (db : DB) (doi firstName lastName : String) (aff : Option String) : DB :=
  match lookupAuthor db firstName lastName aff with
  | some a => addAuthorLink db doi a.id
  | none =>
    addAuthorLink
      { db with authors := db.authors ++ [⟨db.nextAuthorId, firstName, lastName, aff⟩],
                nextAuthorId := db.nextAuthorId + 1 }
      doi db.nextAuthorId

/-- The `Keyword.keyword.contains(sub)` predicate on one keyword row:
SQLAlchemy renders it as `keyword LIKE '%' || sub || '%'` (no escaping of the
substring), evaluated with sqlite's default `LIKE` semantics. -/
def kwMatches (k : Keyword) (sub : String) : Bool :=
  likeMatch ('%' :: (sub.data ++ ['%'])) k.keyword.data

/-- The query
`select(Article).where(Article.keywords.any(Keyword.keyword.contains(sub)))`:
an EXISTS subquery over the `articlekeyword` association join, evaluated
against the store. -/
def selectArticlesByKeyword (db : DB) (sub : String) : List Article :=
  db.articles.filter (fun a =>
    db.articleKeywords.any (fun link =>
      link.article_doi == a.doi &&
      db.keywords.any (fun k => k.id == link.keyword_id && kwMatches k sub)))

/-- A table of the store as seen by schema initialization: its name, its
column declarations, and its current rows (row values kept abstract). -/
structure StoreTable where
  name : String
  columns : List String
  rows : List (List String)
deriving DecidableEq, Repr

/-- `CREATE TABLE IF NOT EXISTS name (columns)`: a no-op when a table of that
name already exists, otherwise creates the table with no rows. -/
def createTableIfNotExists (store : List StoreTable) (name : String) (cols : List String) :
    List StoreTable :=
  if ∃ t ∈ store, t.name = name then store
  else store ++ [⟨name, cols, []⟩]

/-- `SQLModel.metadata.create_all(engine)`: issue `CREATE TABLE IF NOT EXISTS`
for every table of the metadata, in order (SQLAlchemy's `checkfirst` skips the
tables that already exist). -/
def create_all (tableDefs : List (String × List String)) (store : List StoreTable) :
    List StoreTable :=
  tableDefs.foldl (fun s td => createTableIfNotExists s td.1 td.2) store

/-- The table metadata declared by the SQLModel classes of the notebooks. -/
def sqlmodelMetadata : List (String × List String) :=
  [("article", ["doi", "title", "publication_year", "abstract"]),
   ("author", ["id", "first_name", "last_name", "affiliation"]),
   ("keyword", ["id", "keyword"]),
   ("articlekeyword", ["article_doi", "keyword_id"]),
   ("articleauthor", ["article_doi", "author_id"])]

/-- A store is initialized for some metadata when every declared table name
already exists in it. -/
def initialized (tableDefs : List (String × List String)) (store : List StoreTable) : Prop :=
  ∀ td ∈ tableDefs, ∃ t ∈ store, t.name = td.1

/-- A file system, as the list of existing file paths. -/
abbrev FileSystem := List String

/-- Errors raised by the `os` module calls the notebooks make. -/
inductive OSError where
  | fileNotFound
deriving DecidableEq, Repr

/-- `os.path.exists(p)`. -/
def os_path_exists (fs : FileSystem) (p : String) : Bool := fs.contains p

/-- `os.remove(p)`: deletes the file, raising `FileNotFoundError` when it does
not exist. -/
def os_remove (fs : FileSystem) (p : String) : Except OSError FileSystem :=
  if os_path_exists fs p then .ok (fs.filter (fun q => q ≠ p)) else .error .fileNotFound

/-- The notebooks' `remove_db()` helper:
`if os.path.exists(fname): os.remove(fname)` — each notebook instantiates
`fname` with its own database file name. -/
def remove_db (fname : String) (fs : FileSystem) : Except OSError FileSystem :=
  if os_path_exists fs fname then os_remove fs fname else .ok fs

/-- Referential integrity of the association tables: every association row
references an existing `Article` row and an existing `Keyword`/`Author` row. -/
def refIntegrity (db : DB) : Prop :=
  (∀ l ∈ db.articleKeywords,
    (∃ a ∈ db.articles, a.doi = l.article_doi) ∧ (∃ k ∈ db.keywords, k.id = l.keyword_id)) ∧
  (∀ l ∈ db.articleAuthors,
    (∃ a ∈ db.articles, a.doi = l.article_doi) ∧ (∃ u ∈ db.authors, u.id = l.author_id))

/-- The store invariant maintained by the demonstrated operations. -/
structure Inv (db : DB) : Prop where
  kwLower : ∀ k ∈ db.keywords, k.keyword = lowerStr k.keyword
  kwUnique : (db.keywords.map Keyword.keyword).Nodup
  linkNodup : db.articleKeywords.Nodup
  auLinkNodup : db.articleAuthors.Nodup
  integrity : refIntegrity db

/-- The store states reachable through the demonstrated operations: the
freshly initialized empty store, the per-paper Session insert loop, and the
(spec-modelled) author linkage applied to an article present in the store. -/
inductive Reach : DB → Prop where
  | init : Reach emptyDB
  | paper {db db' : DB} {p : PaperRecord} :
      Reach db → insertPaper db p = .ok db' → Reach db'
  | author {db : DB} {doi firstName lastName : String} {aff : Option String} :
      Reach db → (∃ a ∈ db.articles, a.doi = doi) →
      Reach (linkAuthor db doi firstName lastName aff)

/-- Example paper holding one keyword, used for concrete runs. -/
def paperEx1 : PaperRecord := ⟨"10.1/x", "Title", none, ["AI"], none⟩

/-- The store after loading `paperEx1` into the empty store. -/
def dbEx1 : DB :=
  ⟨[⟨"10.1/x", "Title", 2024, none⟩], [], [⟨0, "ai"⟩], [⟨"10.1/x", 0⟩], [], 1, 0⟩

/-- The spec's query example: an article tagged
["Chemoinformatics", "Drug Discovery"]. -/
def paperChem : PaperRecord :=
  ⟨"10.1/chem", "Chem paper", none, ["Chemoinformatics", "Drug Discovery"], none⟩

/-- The spec's query example: an article tagged ["Database"]. -/
def paperData : PaperRecord := ⟨"10.1/data", "Data paper", none, ["Database"], none⟩

/-- The two example articles loaded into a fresh store. -/
def dbDrugEx : DB := loadPapers emptyDB [paperChem, paperData]

/-! ### Helper lemmas -/

theorem char_toLower_idem (c : Char) : c.toLower.toLower = c.toLower := by
  unfold Char.toLower
  by_cases h : c.toNat ≥ 65 ∧ c.toNat ≤ 90
  · rw [if_pos h]
    obtain ⟨h1, h2⟩ := h
    set n := c.toNat with hn
    interval_cases n <;> decide
  · rw [if_neg h, if_neg h]

theorem lowerStr_idem (s : String) : lowerStr (lowerStr s) = lowerStr s := by
  unfold lowerStr
  apply congrArg
  simp only [List.map_map]
  exact List.map_congr_left (fun c _ => char_toLower_idem c)

theorem likeHead_pct (mt : List Char → Bool) (c : Char) (ps : List Char) :
    likeHead mt c ('%' :: ps) = (likeHead mt c ps || mt ('%' :: ps)) := by
  conv_lhs => unfold likeHead
  rw [if_pos rfl]

theorem likeHead_lit (mt : List Char → Bool) (c a : Char) (ps : List Char)
    (h1 : a ≠ '%') (h2 : a ≠ '_') :
    likeHead mt c (a :: ps) = (likeCharEq a c && mt ps) := by
  unfold likeHead
  rw [if_neg h1, if_neg h2]

theorem likeEmpty_wf {q : List Char} (hw : ∀ c ∈ q, c ≠ '%' ∧ c ≠ '_') :
    likeEmpty q = true ↔ q = [] := by
  cases q with
  | nil => simp [likeEmpty]
  | cons a qs =>
    have ha := (hw a (List.mem_cons_self _ _)).1
    simp [likeEmpty, ha]

theorem likeEmpty_append_pct {q : List Char} (hw : ∀ c ∈ q, c ≠ '%' ∧ c ≠ '_') :
    likeEmpty (q ++ ['%']) = true ↔ q = [] := by
  cases q with
  | nil => simp [likeEmpty]
  | cons a qs =>
    have ha := (hw a (List.mem_cons_self _ _)).1
    simp [likeEmpty, ha]

theorem likeGo_pct (r : List Char) (s : List Char) :
    likeGo s ('%' :: r) = true ↔ ∃ t, t <:+ s ∧ likeGo t r = true := by
  induction s with
  | nil =>
    have he : likeGo [] ('%' :: r) = likeEmpty r := by
      simp [likeGo, likeEmpty]
    rw [he]
    constructor
    · intro h
      exact ⟨[], List.suffix_refl [], h⟩
    · rintro ⟨t, hts, htr⟩
      rw [List.suffix_nil] at hts
      subst hts
      exact htr
  | cons c t ih =>
    have he : likeGo (c :: t) ('%' :: r)
        = (likeGo (c :: t) r || likeGo t ('%' :: r)) := by
      simp only [likeGo, likeHead_pct]
    rw [he, Bool.or_eq_true, ih]
    constructor
    · rintro (h | ⟨u, hu, hur⟩)
      · exact ⟨c :: t, List.suffix_refl _, h⟩
      · exact ⟨u, hu.trans (List.suffix_cons c t), hur⟩
    · rintro ⟨u, hu, hur⟩
      rcases List.suffix_cons_iff.mp hu with hu | hu
      · subst hu
        exact .inl hur
      · exact .inr ⟨u, hu, hur⟩

theorem likeGo_append_pct {q : List Char} (hw : ∀ c ∈ q, c ≠ '%' ∧ c ≠ '_')
    (s : List Char) :
    likeGo s (q ++ ['%']) = true ↔
      ∃ s1 s2, s = s1 ++ s2 ∧ s1.map Char.toLower = q.map Char.toLower := by
  induction s generalizing q with
  | nil =>
    show likeEmpty (q ++ ['%']) = true ↔ _
    rw [likeEmpty_append_pct hw]
    constructor
    · intro h
      subst h
      exact ⟨[], [], rfl, rfl⟩
    · rintro ⟨s1, s2, hs, hm⟩
      have hnil : s1 = [] := by
        cases s1 with
        | nil => rfl
        | cons x xs => cases hs
      subst hnil
      rw [List.map_nil] at hm
      exact List.map_eq_nil_iff.mp hm.symm
  | cons c t ih =>
    cases q with
    | nil =>
      constructor
      · intro _
        exact ⟨[], c :: t, rfl, rfl⟩
      · intro _
        have h1 : likeGo t (([] : List Char) ++ ['%']) = true :=
          (@ih [] (fun x hx => absurd hx (List.not_mem_nil x))).mpr ⟨[], t, rfl, rfl⟩
        rw [List.nil_append] at h1 ⊢
        simp only [likeGo, likeHead_pct, Bool.or_eq_true]
        right
        exact h1
    | cons a qs =>
      have ha := hw a (List.mem_cons_self _ _)
      have he : likeGo (c :: t) ((a :: qs) ++ ['%'])
          = (likeCharEq a c && likeGo t (qs ++ ['%'])) := by
        show likeHead (fun q => likeGo t q) c (a :: (qs ++ ['%'])) = _
        rw [likeHead_lit _ _ _ _ ha.1 ha.2]
      rw [he, Bool.and_eq_true, ih (fun x hx => hw x (List.mem_cons_of_mem _ hx))]
      constructor
      · rintro ⟨hac, t1, t2, ht, hm⟩
        refine ⟨c :: t1, t2, by rw [ht]; rfl, ?_⟩
        show c.toLower :: t1.map Char.toLower = a.toLower :: qs.map Char.toLower
        have hac' : a.toLower = c.toLower := by
          have := hac
          unfold likeCharEq at this
          exact beq_iff_eq.mp this
        rw [hm, hac']
      · rintro ⟨s1, s2, hs, hm⟩
        cases s1 with
        | nil => cases hm
        | cons c1 t1 =>
          have hc1 : c1 = c ∧ t = t1 ++ s2 := by
            rw [List.cons_append] at hs
            exact ⟨(List.cons.injEq _ _ _ _ ▸ hs).1.symm,
              (List.cons.injEq _ _ _ _ ▸ hs).2⟩
          obtain ⟨hc1e, hts⟩ := hc1
          subst hc1e
          rw [List.map_cons, List.map_cons, List.cons.injEq] at hm
          refine ⟨?_, t1, s2, hts, hm.2⟩
          unfold likeCharEq
          exact beq_iff_eq.mpr hm.1.symm

theorem likeContains_iff {q : List Char} (hw : ∀ c ∈ q, c ≠ '%' ∧ c ≠ '_')
    (s : List Char) :
    likeMatch ('%' :: (q ++ ['%'])) s = true ↔
      ∃ s1 s2 s3, s = s1 ++ s2 ++ s3 ∧ s2.map Char.toLower = q.map Char.toLower := by
  unfold likeMatch
  rw [likeGo_pct]
  constructor
  · rintro ⟨t, hts, htm⟩
    obtain ⟨s2, s3, ht, hm⟩ := (likeGo_append_pct hw t).mp htm
    obtain ⟨s1, hs1⟩ := hts
    exact ⟨s1, s2, s3, by rw [← hs1, ht, List.append_assoc], hm⟩
  · rintro ⟨s1, s2, s3, hs, hm⟩
    refine ⟨s2 ++ s3, ⟨s1, by rw [hs, List.append_assoc]⟩, ?_⟩
    exact (likeGo_append_pct hw _).mpr ⟨s2, s3, rfl, hm⟩

theorem forall₂_mem_left {α β : Type} {R : α → β → Prop} {l1 : List α} {l2 : List β}
    (h : List.Forall₂ R l1 l2) : ∀ a ∈ l1, ∃ b ∈ l2, R a b := by
  induction h with
  | nil => intro a ha; cases ha
  | cons hr _ ih =>
    intro a ha
    rw [List.mem_cons] at ha
    rcases ha with ha | ha
    · subst ha; exact ⟨_, List.mem_cons_self _ _, hr⟩
    · obtain ⟨b, hb, hrb⟩ := ih _ ha
      exact ⟨b, List.mem_cons_of_mem _ hb, hrb⟩

theorem forall₂_mem_right {α β : Type} {R : α → β → Prop} {l1 : List α} {l2 : List β}
    (h : List.Forall₂ R l1 l2) : ∀ b ∈ l2, ∃ a ∈ l1, R a b := by
  induction h with
  | nil => intro b hb; cases hb
  | cons hr _ ih =>
    intro b hb
    rw [List.mem_cons] at hb
    rcases hb with hb | hb
    · subst hb; exact ⟨_, List.mem_cons_self _ _, hr⟩
    · obtain ⟨a, ha, hra⟩ := ih _ hb
      exact ⟨a, List.mem_cons_of_mem _ ha, hra⟩

/-- What the keyword loop body guarantees about its result: an existing row is
the unique row carrying the lower-cased text; a fresh object carries the
doubly-lower-cased text and no stored row matches the lookup. -/
def resolvesTo (db : DB) (kw : String) : Sum Keyword String → Prop
  | .inl row =>
    row ∈ db.keywords ∧ row.keyword = lowerStr kw ∧
    db.keywords.filter (fun r => r.keyword == lowerStr kw) = [row]
  | .inr s =>
    s = lowerStr (lowerStr kw) ∧
    db.keywords.filter (fun r => r.keyword == lowerStr kw) = []

theorem resolveKeyword_ok {db : DB} {kw : String} {r : Sum Keyword String}
    (h : resolveKeyword db kw = .ok r) : resolvesTo db kw r := by
  unfold resolveKeyword at h
  rcases hf : db.keywords.filter (fun row => row.keyword == lowerStr kw) with _ | ⟨row, rest⟩
  · rw [hf] at h
    simp only [one_or_none] at h
    cases h
    exact ⟨rfl, hf⟩
  · rcases rest with _ | ⟨row2, rest2⟩
    · rw [hf] at h
      simp only [one_or_none] at h
      cases h
      have hrowmem : row ∈ db.keywords.filter (fun r => r.keyword == lowerStr kw) := by
        rw [hf]; exact List.mem_singleton.mpr rfl
      rw [List.mem_filter] at hrowmem
      exact ⟨hrowmem.1, by simpa using hrowmem.2, hf⟩
    · rw [hf] at h
      simp only [one_or_none] at h
      cases h

theorem resolveKeywords_forall₂ {db : DB} {kws : List String}
    {rs : List (Sum Keyword String)} (h : resolveKeywords db kws = .ok rs) :
    List.Forall₂ (resolvesTo db) kws rs := by
  induction kws generalizing rs with
  | nil =>
    unfold resolveKeywords at h
    cases h
    exact .nil
  | cons kw rest ih =>
    unfold resolveKeywords at h
    rcases h1 : resolveKeyword db kw with e | r
    · rw [h1] at h; cases h
    · rcases h2 : resolveKeywords db rest with e | rs'
      · rw [h1, h2] at h; cases h
      · rw [h1, h2] at h
        cases h
        exact .cons (resolveKeyword_ok h1) (ih h2)

theorem assignIds_forall₂ (n : Nat) (rs : List (Sum Keyword String)) :
    List.Forall₂ (fun r k => match r with | .inl row => k = row | .inr s => k.keyword = s)
      rs (assignIds n rs).1 := by
  induction rs generalizing n with
  | nil => exact .nil
  | cons r rest ih =>
    rcases r with row | s
    · exact .cons rfl (ih n)
    · exact .cons rfl (ih (n + 1))

theorem assignIds_objs_cases (n : Nat) (rs : List (Sum Keyword String)) :
    ∀ k ∈ (assignIds n rs).1, Sum.inl k ∈ rs ∨ k ∈ (assignIds n rs).2.1 := by
  induction rs generalizing n with
  | nil => intro k hk; cases hk
  | cons r rest ih =>
    intro k hk
    rcases r with row | s
    · simp only [assignIds, List.mem_cons] at hk ⊢
      rcases hk with hk | hk
      · exact .inl (.inl (by rw [hk]))
      · rcases ih n k hk with h | h
        · exact .inl (.inr h)
        · exact .inr h
    · simp only [assignIds, List.mem_cons] at hk ⊢
      rcases hk with hk | hk
      · exact .inr (.inl hk)
      · rcases ih (n + 1) k hk with h | h
        · exact .inl (.inr h)
        · exact .inr (.inr h)

theorem assignIds_fresh_inr (n : Nat) (rs : List (Sum Keyword String)) :
    ∀ k ∈ (assignIds n rs).2.1, Sum.inr k.keyword ∈ rs := by
  induction rs generalizing n with
  | nil => intro k hk; cases hk
  | cons r rest ih =>
    intro k hk
    rcases r with row | s
    · simp only [assignIds, List.mem_cons] at hk ⊢
      exact .inr (ih n k hk)
    · simp only [assignIds, List.mem_cons] at hk ⊢
      rcases hk with hk | hk
      · exact .inl (by rw [hk])
      · exact .inr (ih (n + 1) k hk)

theorem assignIds_fresh_sub (n : Nat) (rs : List (Sum Keyword String)) :
    ∀ k ∈ (assignIds n rs).2.1, k ∈ (assignIds n rs).1 := by
  induction rs generalizing n with
  | nil => intro k hk; cases hk
  | cons r rest ih =>
    intro k hk
    rcases r with row | s
    · simp only [assignIds, List.mem_cons] at hk ⊢
      exact .inr (ih n k hk)
    · simp only [assignIds, List.mem_cons] at hk ⊢
      rcases hk with hk | hk
      · exact .inl hk
      · exact .inr (ih (n + 1) k hk)

theorem insertPaper_ok {db : DB} {p : PaperRecord} {db' : DB}
    (h : insertPaper db p = .ok db') :
    ∃ resolved, resolveKeywords db p.keywords = .ok resolved ∧
      (∀ a ∈ db.articles, a.doi ≠ p.doi) ∧
      (((assignIds db.nextKeywordId resolved).2.1.map Keyword.keyword).Nodup ∧
        ∀ r ∈ (assignIds db.nextKeywordId resolved).2.1,
          ∀ k ∈ db.keywords, k.keyword ≠ r.keyword) ∧
      (((assignIds db.nextKeywordId resolved).1.map
          (fun k => ArticleKeyword.mk p.doi k.id)).Nodup ∧
        ∀ l ∈ (assignIds db.nextKeywordId resolved).1.map
          (fun k => ArticleKeyword.mk p.doi k.id), l ∉ db.articleKeywords) ∧
      db' = { articles := db.articles ++ [⟨p.doi, p.title, 2024, p.abstract⟩],
              authors := db.authors,
              keywords := db.keywords ++ (assignIds db.nextKeywordId resolved).2.1,
              articleKeywords := db.articleKeywords ++
                (assignIds db.nextKeywordId resolved).1.map
                  (fun k => ArticleKeyword.mk p.doi k.id),
              articleAuthors := db.articleAuthors,
              nextKeywordId := (assignIds db.nextKeywordId resolved).2.2,
              nextAuthorId := db.nextAuthorId } := by
  unfold insertPaper at h
  rcases hres : resolveKeywords db p.keywords with e | resolved
  · rw [hres] at h; cases h
  · rw [hres] at h
    simp only at h
    split_ifs at h with h1 h2 h3 <;> cases h <;>
      exact ⟨resolved, rfl, fun a ha hc => h1 ⟨a, ha, hc⟩, h2, h3, rfl⟩

theorem inv_empty : Inv emptyDB := by
  refine ⟨?_, ?_, ?_, ?_, ?_, ?_⟩ <;> simp [emptyDB, refIntegrity]

theorem insertPaper_inv {db : DB} {p : PaperRecord} {db' : DB}
    (hinv : Inv db) (h : insertPaper db p = .ok db') : Inv db' := by
  obtain ⟨resolved, hres, hdoi, ⟨hfNodup, hfNew⟩, ⟨hlNodup, hlNew⟩, hdb'⟩ := insertPaper_ok h
  have hf2 := resolveKeywords_forall₂ hres
  subst hdb'
  have hfreshLower : ∀ k ∈ (assignIds db.nextKeywordId resolved).2.1,
      k.keyword = lowerStr k.keyword := by
    intro k hk
    have hinr := assignIds_fresh_inr db.nextKeywordId resolved k hk
    obtain ⟨kw, _, hsp⟩ := forall₂_mem_right hf2 _ hinr
    obtain ⟨hs, _⟩ := hsp
    rw [hs, lowerStr_idem, lowerStr_idem]
  have hobjsMem : ∀ k ∈ (assignIds db.nextKeywordId resolved).1,
      k ∈ db.keywords ∨ k ∈ (assignIds db.nextKeywordId resolved).2.1 := by
    intro k hk
    rcases assignIds_objs_cases db.nextKeywordId resolved k hk with hc | hc
    · obtain ⟨kw, _, hsp⟩ := forall₂_mem_right hf2 _ hc
      exact .inl hsp.1
    · exact .inr hc
  constructor
  · intro k hk
    rcases List.mem_append.mp hk with hk | hk
    · exact hinv.kwLower k hk
    · exact hfreshLower k hk
  · rw [List.map_append, List.nodup_append]
    refine ⟨hinv.kwUnique, hfNodup, ?_⟩
    intro s hs1 hs2
    rw [List.mem_map] at hs1 hs2
    obtain ⟨ko, hko, hkoe⟩ := hs1
    obtain ⟨kf, hkf, hkfe⟩ := hs2
    exact hfNew kf hkf ko hko (hkoe.trans hkfe.symm)
  · rw [List.nodup_append]
    exact ⟨hinv.linkNodup, hlNodup, fun l hl hl2 => hlNew l hl2 hl⟩
  · exact hinv.auLinkNodup
  · constructor
    · intro l hl
      rcases List.mem_append.mp hl with hl | hl
      · obtain ⟨⟨a, ha, hae⟩, ⟨k, hk, hke⟩⟩ := hinv.integrity.1 l hl
        exact ⟨⟨a, List.mem_append_left _ ha, hae⟩, ⟨k, List.mem_append_left _ hk, hke⟩⟩
      · rw [List.mem_map] at hl
        obtain ⟨k, hk, hke⟩ := hl
        refine ⟨⟨⟨p.doi, p.title, 2024, p.abstract⟩,
          List.mem_append_right _ (List.mem_singleton.mpr rfl), by rw [← hke]⟩,
          ⟨k, ?_, by rw [← hke]⟩⟩
        rcases hobjsMem k hk with hc | hc
        · exact List.mem_append_left _ hc
        · exact List.mem_append_right _ hc
    · intro l hl
      obtain ⟨⟨a, ha, hae⟩, ⟨u, hu, hue⟩⟩ := hinv.integrity.2 l hl
      exact ⟨⟨a, List.mem_append_left _ ha, hae⟩, ⟨u, hu, hue⟩⟩

theorem addAuthorLink_inv {db : DB} {doi : String} {aid : Nat}
    (hinv : Inv db) (hdoi : ∃ a ∈ db.articles, a.doi = doi)
    (haid : ∃ u ∈ db.authors, u.id = aid) : Inv (addAuthorLink db doi aid) := by
  unfold addAuthorLink
  split_ifs with hmem
  · exact hinv
  · refine ⟨hinv.kwLower, hinv.kwUnique, hinv.linkNodup, ?_, ?_, ?_⟩
    · rw [List.nodup_append]
      refine ⟨hinv.auLinkNodup, List.nodup_singleton _, ?_⟩
      intro x hx hx2
      rw [List.mem_singleton] at hx2
      subst hx2
      exact hmem hx
    · exact hinv.integrity.1
    · intro l hl
      rcases List.mem_append.mp hl with hl | hl
      · exact hinv.integrity.2 l hl
      · rw [List.mem_singleton] at hl
        subst hl
        exact ⟨hdoi, haid⟩

theorem addAuthor_inv {db : DB} (hinv : Inv db) (u : Author) :
    Inv { db with authors := db.authors ++ [u], nextAuthorId := db.nextAuthorId + 1 } := by
  refine ⟨hinv.kwLower, hinv.kwUnique, hinv.linkNodup, hinv.auLinkNodup, ?_, ?_⟩
  · exact hinv.integrity.1
  · intro l hl
    obtain ⟨ha, ⟨u2, hu2, hu2e⟩⟩ := hinv.integrity.2 l hl
    exact ⟨ha, ⟨u2, List.mem_append_left _ hu2, hu2e⟩⟩

theorem linkAuthor_inv {db : DB} {doi firstName lastName : String} {aff : Option String}
    (hinv : Inv db) (hdoi : ∃ a ∈ db.articles, a.doi = doi) :
    Inv (linkAuthor db doi firstName lastName aff) := by
  unfold linkAuthor
  rcases hfind : lookupAuthor db firstName lastName aff with _ | a
  · refine addAuthorLink_inv (addAuthor_inv hinv _) hdoi ?_
    exact ⟨⟨db.nextAuthorId, firstName, lastName, aff⟩,
      List.mem_append_right _ (List.mem_singleton.mpr rfl), rfl⟩
  · exact addAuthorLink_inv hinv hdoi
      ⟨a, List.mem_of_find?_eq_some hfind, rfl⟩

theorem reach_inv {db : DB} (h : Reach db) : Inv db := by
  induction h with
  | init => exact inv_empty
  | paper _ hok ih => exact insertPaper_inv ih hok
  | author _ hdoi ih => exact linkAuthor_inv ih hdoi

theorem committedStates_inv {db : DB} (hinv : Inv db) (ps : List PaperRecord) :
    ∀ s ∈ committedStates db ps, Inv s := by
  induction ps generalizing db with
  | nil =>
    intro s hs
    unfold committedStates at hs
    rw [List.mem_singleton] at hs
    subst hs
    exact hinv
  | cons p ps ih =>
    intro s hs
    unfold committedStates at hs
    rcases hok : insertPaper db p with e | db'
    · rw [hok] at hs
      rw [List.mem_singleton] at hs
      subst hs
      exact hinv
    · rw [hok] at hs
      rw [List.mem_cons] at hs
      rcases hs with hs | hs
      · subst hs
        exact hinv
      · exact ih (insertPaper_inv hinv hok) s hs

theorem loadPapers_year {db : DB}
    (hyear : ∀ a ∈ db.articles, a.publication_year = 2024) (ps : List PaperRecord) :
    ∀ a ∈ (loadPapers db ps).articles, a.publication_year = 2024 := by
  induction ps generalizing db with
  | nil => simpa [loadPapers] using hyear
  | cons p ps ih =>
    intro a ha
    unfold loadPapers at ha
    rcases hok : insertPaper db p with e | db'
    · rw [hok] at ha
      exact hyear a ha
    · rw [hok] at ha
      refine ih ?_ a ha
      obtain ⟨resolved, _, _, _, _, hdb'⟩ := insertPaper_ok hok
      subst hdb'
      intro a2 ha2
      rcases List.mem_append.mp ha2 with h2 | h2
      · exact hyear a2 h2
      · rw [List.mem_singleton] at h2
        subst h2
        rfl

theorem create_all_cons (td : String × List String) (tds : List (String × List String))
    (store : List StoreTable) :
    create_all (td :: tds) store = create_all tds (createTableIfNotExists store td.1 td.2) := rfl

theorem createTable_mem {store : List StoreTable} {t : StoreTable} (ht : t ∈ store)
    (name : String) (cols : List String) : t ∈ createTableIfNotExists store name cols := by
  unfold createTableIfNotExists
  split_ifs with h
  · exact ht
  · exact List.mem_append_left _ ht

theorem create_all_mem (tds : List (String × List String)) {store : List StoreTable}
    {t : StoreTable} (ht : t ∈ store) : t ∈ create_all tds store := by
  induction tds generalizing store with
  | nil => exact ht
  | cons td tds ih => exact ih (createTable_mem ht td.1 td.2)

theorem createTable_noop {store : List StoreTable} {name : String}
    (h : ∃ t ∈ store, t.name = name) (cols : List String) :
    createTableIfNotExists store name cols = store := by
  unfold createTableIfNotExists
  rw [if_pos h]

theorem create_all_noop {tds : List (String × List String)} {store : List StoreTable}
    (h : initialized tds store) : create_all tds store = store := by
  induction tds with
  | nil => rfl
  | cons td tds ih =>
    rw [create_all_cons, createTable_noop (h td (List.mem_cons_self td tds)) td.2]
    exact ih (fun td2 htd2 => h td2 (List.mem_cons_of_mem _ htd2))

theorem createTable_has (store : List StoreTable) (name : String) (cols : List String) :
    ∃ t ∈ createTableIfNotExists store name cols, t.name = name := by
  unfold createTableIfNotExists
  split_ifs with h
  · exact h
  · exact ⟨⟨name, cols, []⟩, List.mem_append_right _ (List.mem_singleton.mpr rfl), rfl⟩

theorem create_all_initialized (tds : List (String × List String)) (store : List StoreTable) :
    initialized tds (create_all tds store) := by
  induction tds generalizing store with
  | nil => intro td htd; cases htd
  | cons td tds ih =>
    intro td2 htd2
    rw [List.mem_cons] at htd2
    rcases htd2 with htd2 | htd2
    · subst htd2
      rw [create_all_cons]
      obtain ⟨t, ht, hname⟩ := createTable_has store td2.1 td2.2
      exact ⟨t, create_all_mem tds ht, hname⟩
    · rw [create_all_cons]
      exact ih _ td2 htd2

/-! ### Claim theorems -/

/-- C1 counterexample: querying the substring "Drug" through the helper
returns the article tagged ["Chemoinformatics", "Drug Discovery"] even though
no stored (normalized) keyword text literally contains "Drug" — sqlite `LIKE`
compares ASCII-case-insensitively, so the claim's "no article without such a
keyword is returned" fails on this input. -/
theorem keyword_query_literal_containment_refuted :
    selectArticlesByKeyword dbDrugEx "Drug" = [⟨"10.1/chem", "Chem paper", 2024, none⟩] ∧
    (∀ k ∈ dbDrugEx.keywords, specLiteralContains "Drug".data k.keyword.data = false) := by
  decide

/-- C1 amended: the result of a keyword-substring query is exactly the set of
articles having at least one associated keyword whose stored (normalized)
text matches the substring under sqlite `LIKE` semantics (the query is
`keyword LIKE '%'+sub+'%'`): first conjunct, membership iff some association
row joins the article to a matching keyword row; second conjunct, for a
substring free of the `%`/`_` wildcard characters this matching is exactly
ASCII-case-insensitive containment — the keyword text has a contiguous
segment equal to the substring up to ASCII case.  On the spec's example — one
article tagged ["Chemoinformatics", "Drug Discovery"] and another tagged
["Database"] — filtering on "drug" (and likewise on "Drug") returns exactly
the first article. -/
theorem keyword_substring_query_exact :
    (∀ (db : DB) (sub : String) (a : Article),
      a ∈ selectArticlesByKeyword db sub ↔
        a ∈ db.articles ∧ ∃ l ∈ db.articleKeywords, l.article_doi = a.doi ∧
          ∃ k ∈ db.keywords, k.id = l.keyword_id ∧ kwMatches k sub = true) ∧
    (∀ (db : DB) (sub : String) (a : Article), (∀ c ∈ sub.data, c ≠ '%' ∧ c ≠ '_') →
      (a ∈ selectArticlesByKeyword db sub ↔
        a ∈ db.articles ∧ ∃ l ∈ db.articleKeywords, l.article_doi = a.doi ∧
          ∃ k ∈ db.keywords, k.id = l.keyword_id ∧
            ∃ s1 s2 s3, k.keyword.data = s1 ++ s2 ++ s3 ∧
              s2.map Char.toLower = sub.data.map Char.toLower)) ∧
    selectArticlesByKeyword dbDrugEx "drug" = [⟨"10.1/chem", "Chem paper", 2024, none⟩] ∧
    selectArticlesByKeyword dbDrugEx "Drug" = [⟨"10.1/chem", "Chem paper", 2024, none⟩] := by
  have hmem : ∀ (db : DB) (sub : String) (a : Article),
      a ∈ selectArticlesByKeyword db sub ↔
        a ∈ db.articles ∧ ∃ l ∈ db.articleKeywords, l.article_doi = a.doi ∧
          ∃ k ∈ db.keywords, k.id = l.keyword_id ∧ kwMatches k sub = true := by
    intro db sub a
    unfold selectArticlesByKeyword
    rw [List.mem_filter]
    simp only [List.any_eq_true, Bool.and_eq_true, beq_iff_eq]
  refine ⟨hmem, ?_, ?_, ?_⟩
  · intro db sub a hw
    rw [hmem db sub a]
    constructor
    · rintro ⟨ha, l, hl, hdoi, k, hk, hid, hkm⟩
      exact ⟨ha, l, hl, hdoi, k, hk, hid,
        (likeContains_iff hw k.keyword.data).mp hkm⟩
    · rintro ⟨ha, l, hl, hdoi, k, hk, hid, hseg⟩
      exact ⟨ha, l, hl, hdoi, k, hk, hid,
        (likeContains_iff hw k.keyword.data).mpr hseg⟩
  · decide
  · decide

theorem keyword_substring_query_exact_witness :
    (⟨"10.1/chem", "Chem paper", 2024, none⟩ : Article)
        ∈ selectArticlesByKeyword dbDrugEx "Drug" ↔
      ((⟨"10.1/chem", "Chem paper", 2024, none⟩ : Article) ∈ dbDrugEx.articles ∧
        ∃ l ∈ dbDrugEx.articleKeywords, l.article_doi = "10.1/chem" ∧
          ∃ k ∈ dbDrugEx.keywords, k.id = l.keyword_id ∧
            ∃ s1 s2 s3, k.keyword.data = s1 ++ s2 ++ s3 ∧
              s2.map Char.toLower = "Drug".data.map Char.toLower) :=
  keyword_substring_query_exact.2.1 dbDrugEx "Drug"
    ⟨"10.1/chem", "Chem paper", 2024, none⟩ (by decide)

/-- C4: every committed persistent state of a run of the batch insert loop
satisfies referential integrity for the association rows, so a crash mid-loop
can never leave the store holding an association row whose parent article or
keyword row was not committed. -/
theorem committed_states_referential_integrity :
    ∀ (ps : List PaperRecord) (s : DB), s ∈ committedStates emptyDB ps →
      ∀ l ∈ s.articleKeywords,
        (∃ a ∈ s.articles, a.doi = l.article_doi) ∧
        (∃ k ∈ s.keywords, k.id = l.keyword_id) := by
  intro ps s hs
  exact (committedStates_inv inv_empty ps s hs).integrity.1

theorem committed_states_referential_integrity_witness :
    (∃ a ∈ dbEx1.articles, a.doi = "10.1/x") ∧ (∃ k ∈ dbEx1.keywords, k.id = 0) :=
  committed_states_referential_integrity [paperEx1] dbEx1 (by decide)
    ⟨"10.1/x", 0⟩ (by decide)

/-- C5 counterexample: a duplicate association insert attempt through the
walkthrough's plain `INSERT INTO article_keywords` is not tolerated silently —
it raises a composite-primary-key violation. -/
theorem duplicate_association_insert_raises :
    insertAssociationRow [⟨"10.1/x", 0⟩] ⟨"10.1/x", 0⟩ = .error .primaryKeyViolation := by
  decide

/-- C5 amended: the helper inserts the association row joining the owning
article to the resolved id when the composite key is not already present; a
duplicate association insert attempt fails with a composite-primary-key
violation that propagates to the caller (no insert-or-ignore). -/
theorem association_insert_composite_key :
    ∀ (links : List ArticleKeyword) (l : ArticleKeyword),
      (l ∉ links → insertAssociationRow links l = .ok (links ++ [l])) ∧
      (l ∈ links → insertAssociationRow links l = .error .primaryKeyViolation) := by
  intro links l
  constructor
  · intro h
    unfold insertAssociationRow
    rw [if_neg h]
  · intro h
    unfold insertAssociationRow
    rw [if_pos h]

theorem association_insert_composite_key_witness :
    insertAssociationRow [] ⟨"10.1/x", 0⟩ = .ok [⟨"10.1/x", 0⟩] :=
  (association_insert_composite_key [] ⟨"10.1/x", 0⟩).1 (by decide)

/-- C6: schema initialization is idempotent: against an already-initialized
store it is a no-op (no error, no drop, every row and row count preserved);
re-applying it right after a first application changes nothing; and existing
tables, with their rows, always survive it. -/
theorem schema_init_idempotent :
    (∀ (tds : List (String × List String)) (store : List StoreTable),
      initialized tds store → create_all tds store = store) ∧
    (∀ (tds : List (String × List String)) (store : List StoreTable),
      create_all tds (create_all tds store) = create_all tds store) ∧
    (∀ (tds : List (String × List String)) (store : List StoreTable),
      ∀ t ∈ store, t ∈ create_all tds store) := by
  refine ⟨?_, ?_, ?_⟩
  · intro tds store h
    exact create_all_noop h
  · intro tds store
    exact create_all_noop (create_all_initialized tds store)
  · intro tds store t ht
    exact create_all_mem tds ht

/-- An already-initialized, populated store used to evidence C6. -/
def storeEx : List StoreTable :=
  [⟨"article", ["doi", "title", "publication_year", "abstract"], [["10.1/x", "Title", "2024"]]⟩,
   ⟨"author", ["id", "first_name", "last_name", "affiliation"], []⟩,
   ⟨"keyword", ["id", "keyword"], [["0", "ai"]]⟩,
   ⟨"articlekeyword", ["article_doi", "keyword_id"], [["10.1/x", "0"]]⟩,
   ⟨"articleauthor", ["article_doi", "author_id"], []⟩]

theorem schema_init_idempotent_witness :
    create_all sqlmodelMetadata storeEx = storeEx :=
  schema_init_idempotent.1 sqlmodelMetadata storeEx (by unfold initialized; decide)

/-- C7: for every valid Article record, the first insert with a given doi
succeeds, and a second insert of an Article with the same doi fails with a
primary-key violation that propagates to the caller. -/
theorem duplicate_doi_insert_fails :
    ∀ (db : DB) (a a2 : Article), (∀ r ∈ db.articles, r.doi ≠ a.doi) → a2.doi = a.doi →
      ∃ db', insertArticle db a = .ok db' ∧
        insertArticle db' a2 = .error .primaryKeyViolation := by
  intro db a a2 hfresh hdup
  refine ⟨{ db with articles := db.articles ++ [a] }, ?_, ?_⟩
  · unfold insertArticle
    rw [if_neg]
    rintro ⟨r, hr, hre⟩
    exact hfresh r hr hre
  · unfold insertArticle
    rw [if_pos]
    exact ⟨a, List.mem_append_right _ (List.mem_singleton.mpr rfl), hdup.symm⟩

theorem duplicate_doi_insert_fails_witness :
    ∃ db', insertArticle emptyDB ⟨"10.7/a", "T", 2024, none⟩ = .ok db' ∧
      insertArticle db' ⟨"10.7/a", "T2", 2025, none⟩ = .error .primaryKeyViolation :=
  duplicate_doi_insert_fails emptyDB ⟨"10.7/a", "T", 2024, none⟩ ⟨"10.7/a", "T2", 2025, none⟩
    (by decide) (by decide)

/-- C8: in every reachable store state, each association row references an
existing Article row and an existing Keyword/Author row, and the composite
primary keys keep every article-to-keyword and article-to-author link unique. -/
theorem reachable_states_integrity :
    ∀ db : DB, Reach db →
      (∀ l ∈ db.articleKeywords,
        (∃ a ∈ db.articles, a.doi = l.article_doi) ∧
        (∃ k ∈ db.keywords, k.id = l.keyword_id)) ∧
      (∀ l ∈ db.articleAuthors,
        (∃ a ∈ db.articles, a.doi = l.article_doi) ∧
        (∃ u ∈ db.authors, u.id = l.author_id)) ∧
      db.articleKeywords.Nodup ∧ db.articleAuthors.Nodup := by
  intro db h
  have hinv := reach_inv h
  exact ⟨hinv.integrity.1, hinv.integrity.2, hinv.linkNodup, hinv.auLinkNodup⟩

theorem reachable_states_integrity_witness :
    (∀ l ∈ (linkAuthor dbEx1 "10.1/x" "Ada" "Lovelace" none).articleKeywords,
      (∃ a ∈ (linkAuthor dbEx1 "10.1/x" "Ada" "Lovelace" none).articles,
        a.doi = l.article_doi) ∧
      (∃ k ∈ (linkAuthor dbEx1 "10.1/x" "Ada" "Lovelace" none).keywords,
        k.id = l.keyword_id)) ∧
    (∀ l ∈ (linkAuthor dbEx1 "10.1/x" "Ada" "Lovelace" none).articleAuthors,
      (∃ a ∈ (linkAuthor dbEx1 "10.1/x" "Ada" "Lovelace" none).articles,
        a.doi = l.article_doi) ∧
      (∃ u ∈ (linkAuthor dbEx1 "10.1/x" "Ada" "Lovelace" none).authors,
        u.id = l.author_id)) ∧
    (linkAuthor dbEx1 "10.1/x" "Ada" "Lovelace" none).articleKeywords.Nodup ∧
    (linkAuthor dbEx1 "10.1/x" "Ada" "Lovelace" none).articleAuthors.Nodup :=
  reachable_states_integrity _
    (Reach.author (Reach.paper Reach.init
      (show insertPaper emptyDB paperEx1 = .ok dbEx1 by decide))
      (by decide))

/-- C9: every article stored by the batch-loading loop has publication_year
equal to the constant 2024, independent of any date or year information
carried by the input record. -/
theorem publication_year_constant_2024 :
    ∀ (ps : List PaperRecord) (a : Article),
      a ∈ (loadPapers emptyDB ps).articles → a.publication_year = 2024 := by
  intro ps a ha
  refine loadPapers_year ?_ ps a ha
  intro a2 ha2
  exact absurd ha2 (by simp [emptyDB])

theorem publication_year_constant_2024_witness :
    (⟨"10.9/z", "Z", 2024, none⟩ : Article).publication_year = 2024 :=
  publication_year_constant_2024 [⟨"10.9/z", "Z", none, [], some "2019-01-01"⟩]
    ⟨"10.9/z", "Z", 2024, none⟩ (by decide)

/-- C10: the store-reset helper is total and idempotent: it always returns
without error; after any call the database file no longer exists; calling it
again is a no-op; and when the file is already absent it performs no removal
and raises no error. -/
theorem remove_db_of_mem {fname : String} {fs : FileSystem} (h : fname ∈ fs) :
    remove_db fname fs = .ok (fs.filter (fun q => q ≠ fname)) := by
  simp [remove_db, os_remove, os_path_exists, h]

theorem remove_db_of_not_mem {fname : String} {fs : FileSystem} (h : fname ∉ fs) :
    remove_db fname fs = .ok fs := by
  simp [remove_db, os_path_exists, h]

theorem not_mem_filter_self (fname : String) (fs : FileSystem) :
    fname ∉ fs.filter (fun q => q ≠ fname) := by
  simp

theorem remove_db_total_idempotent :
    ∀ (fname : String) (fs : FileSystem),
      (∃ fs', remove_db fname fs = .ok fs') ∧
      (∀ fs', remove_db fname fs = .ok fs' → fname ∉ fs' ∧ remove_db fname fs' = .ok fs') ∧
      (fname ∉ fs → remove_db fname fs = .ok fs) := by
  intro fname fs
  refine ⟨?_, ?_, ?_⟩
  · by_cases hmem : fname ∈ fs
    · exact ⟨_, remove_db_of_mem hmem⟩
    · exact ⟨fs, remove_db_of_not_mem hmem⟩
  · intro fs' h
    by_cases hmem : fname ∈ fs
    · rw [remove_db_of_mem hmem] at h
      cases h
      exact ⟨not_mem_filter_self fname fs,
        remove_db_of_not_mem (not_mem_filter_self fname fs)⟩
    · rw [remove_db_of_not_mem hmem] at h
      cases h
      exact ⟨hmem, remove_db_of_not_mem hmem⟩
  · intro hmem
    exact remove_db_of_not_mem hmem

theorem remove_db_total_idempotent_witness :
    remove_db "sqlmodel_database_relationships.db" ["data/fifty_papers.json"]
      = .ok ["data/fifty_papers.json"] :=
  (remove_db_total_idempotent "sqlmodel_database_relationships.db"
    ["data/fifty_papers.json"]).2.2 (by decide)

/-- C3: every keyword value is lower-cased before storage and stored keyword
values are unique, in every reachable store state; loading "AI" and then "ai"
leaves a single stored Keyword row. -/
theorem keyword_lowercased_and_unique :
    (∀ db : DB, Reach db →
      (∀ k ∈ db.keywords, k.keyword = lowerStr k.keyword) ∧
      (db.keywords.map Keyword.keyword).Nodup) ∧
    (loadPapers emptyDB
        [⟨"10.3/a", "A", none, ["AI"], none⟩,
         ⟨"10.3/b", "B", none, ["ai"], none⟩]).keywords = [⟨0, "ai"⟩] := by
  constructor
  · intro db h
    have hinv := reach_inv h
    exact ⟨hinv.kwLower, hinv.kwUnique⟩
  · decide

theorem keyword_lowercased_and_unique_witness :
    (∀ k ∈ dbEx1.keywords, k.keyword = lowerStr k.keyword) ∧
    (dbEx1.keywords.map Keyword.keyword).Nodup :=
  keyword_lowercased_and_unique.1 dbEx1
    (Reach.paper Reach.init (show insertPaper emptyDB paperEx1 = .ok dbEx1 by decide))

theorem addAuthorLink_authors (db : DB) (doi : String) (aid : Nat) :
    (addAuthorLink db doi aid).authors = db.authors := by
  unfold addAuthorLink
  split_ifs <;> rfl

theorem addAuthorLink_link_mem (db : DB) (doi : String) (aid : Nat) :
    ArticleAuthor.mk doi aid ∈ (addAuthorLink db doi aid).articleAuthors := by
  unfold addAuthorLink
  split_ifs with hm
  · exact hm
  · exact List.mem_append_right _ (List.mem_singleton.mpr rfl)

theorem linkAuthor_some {db : DB} {doi firstName lastName : String} {aff : Option String}
    {a : Author} (hfind : lookupAuthor db firstName lastName aff = some a) :
    linkAuthor db doi firstName lastName aff = addAuthorLink db doi a.id := by
  unfold linkAuthor
  rw [hfind]

theorem linkAuthor_none {db : DB} {doi firstName lastName : String} {aff : Option String}
    (hfind : lookupAuthor db firstName lastName aff = none) :
    linkAuthor db doi firstName lastName aff =
      addAuthorLink
        { db with authors := db.authors ++ [⟨db.nextAuthorId, firstName, lastName, aff⟩],
                  nextAuthorId := db.nextAuthorId + 1 } doi db.nextAuthorId := by
  unfold linkAuthor
  rw [hfind]

/-- C2: keyword half — the insert loop looks each keyword up by its
lower-cased text: a present row is kept with its id, and that id is used for
the article's association row; an absent text leads to a new row whose
generated id is used for the association row; stored keyword texts stay
unique, so no second row is ever created for the same natural key.  Author
half (spec-modelled `linkAuthor`) — an author is looked up by its identity
fields: when present no new row is created and the existing id is linked;
when absent exactly one new row with the generated id is inserted and
linked. -/
theorem lookup_or_create_reuses_ids :
    (∀ (db : DB) (p : PaperRecord) (db' : DB), Inv db → insertPaper db p = .ok db' →
      (∀ k ∈ db.keywords, k ∈ db'.keywords) ∧
      (db'.keywords.map Keyword.keyword).Nodup ∧
      (∀ kw ∈ p.keywords,
        (∀ row ∈ db.keywords, row.keyword = lowerStr kw →
          ArticleKeyword.mk p.doi row.id ∈ db'.articleKeywords) ∧
        ((∀ row ∈ db.keywords, row.keyword ≠ lowerStr kw) →
          ∃ row ∈ db'.keywords, row ∉ db.keywords ∧ row.keyword = lowerStr kw ∧
            ArticleKeyword.mk p.doi row.id ∈ db'.articleKeywords))) ∧
    (∀ (db : DB) (doi firstName lastName : String) (aff : Option String),
      ((∃ a ∈ db.authors, a.first_name = firstName ∧ a.last_name = lastName ∧
          a.affiliation = aff) →
        (linkAuthor db doi firstName lastName aff).authors = db.authors ∧
        ∃ a ∈ db.authors, a.first_name = firstName ∧ a.last_name = lastName ∧
          a.affiliation = aff ∧
          ArticleAuthor.mk doi a.id ∈ (linkAuthor db doi firstName lastName aff).articleAuthors) ∧
      ((∀ a ∈ db.authors, ¬(a.first_name = firstName ∧ a.last_name = lastName ∧
          a.affiliation = aff)) →
        (linkAuthor db doi firstName lastName aff).authors
          = db.authors ++ [⟨db.nextAuthorId, firstName, lastName, aff⟩] ∧
        ArticleAuthor.mk doi db.nextAuthorId
          ∈ (linkAuthor db doi firstName lastName aff).articleAuthors)) := by
  constructor
  · intro db p db' hinv hok
    have hinv' := insertPaper_inv hinv hok
    obtain ⟨resolved, hres, hdoi, hfresh, hlinks, hdb'⟩ := insertPaper_ok hok
    have hf2 := resolveKeywords_forall₂ hres
    have hfobjs := assignIds_forall₂ db.nextKeywordId resolved
    subst hdb'
    refine ⟨fun k hk => List.mem_append_left _ hk, hinv'.kwUnique, ?_⟩
    intro kw hkw
    obtain ⟨r, hr, hsp⟩ := forall₂_mem_left hf2 kw hkw
    constructor
    · intro row hrow hrowkw
      rcases r with row' | s
      · obtain ⟨hmem', hkw', hfil⟩ := hsp
        have hrf : row ∈ db.keywords.filter (fun x => x.keyword == lowerStr kw) := by
          rw [List.mem_filter]
          exact ⟨hrow, by simp [hrowkw]⟩
        rw [hfil, List.mem_singleton] at hrf
        subst hrf
        obtain ⟨k, hkobj, hke⟩ := forall₂_mem_left hfobjs _ hr
        apply List.mem_append_right
        rw [List.mem_map]
        refine ⟨k, hkobj, ?_⟩
        simp only at hke
        rw [hke]
      · obtain ⟨hs, hfil⟩ := hsp
        exfalso
        have hrf : row ∈ db.keywords.filter (fun x => x.keyword == lowerStr kw) := by
          rw [List.mem_filter]
          exact ⟨hrow, by simp [hrowkw]⟩
        rw [hfil] at hrf
        cases hrf
    · intro habsent
      rcases r with row' | s
      · obtain ⟨hmem', hkw', hfil⟩ := hsp
        exact absurd hkw' (habsent row' hmem')
      · obtain ⟨hs, hfil⟩ := hsp
        obtain ⟨k, hkobj, hke⟩ := forall₂_mem_left hfobjs _ hr
        simp only at hke
        have hktext : k.keyword = lowerStr kw := by
          rw [hke, hs, lowerStr_idem]
        have hknotdb : k ∉ db.keywords := by
          intro hc
          exact habsent k hc hktext
        refine ⟨k, ?_, hknotdb, hktext, ?_⟩
        · rcases assignIds_objs_cases db.nextKeywordId resolved k hkobj with hc | hc
          · obtain ⟨kw2, _, hsp2⟩ := forall₂_mem_right hf2 _ hc
            exact absurd hsp2.1 hknotdb
          · exact List.mem_append_right _ hc
        · apply List.mem_append_right
          rw [List.mem_map]
          exact ⟨k, hkobj, rfl⟩
  · intro db doi firstName lastName aff
    constructor
    · intro hex
      rcases hfind : lookupAuthor db firstName lastName aff with _ | a
      · exfalso
        obtain ⟨a, ha, h1, h2, h3⟩ := hex
        unfold lookupAuthor at hfind
        have hnp := List.find?_eq_none.mp hfind a ha
        simp [h1, h2, h3] at hnp
      · have hfind' := hfind
        unfold lookupAuthor at hfind'
        have hamem : a ∈ db.authors := List.mem_of_find?_eq_some hfind'
        have hpred := List.find?_some hfind'
        simp only [Bool.and_eq_true, beq_iff_eq] at hpred
        rw [linkAuthor_some hfind]
        constructor
        · exact addAuthorLink_authors db doi a.id
        · exact ⟨a, hamem, hpred.1.1, hpred.1.2, hpred.2,
            addAuthorLink_link_mem db doi a.id⟩
    · intro hnone
      have hfind : lookupAuthor db firstName lastName aff = none := by
        unfold lookupAuthor
        rw [List.find?_eq_none]
        intro a ha
        have hno := hnone a ha
        simp only [Bool.and_eq_true, beq_iff_eq, not_and]
        intro h1 h2
        exact hno ⟨h1.1, h1.2, h2⟩
      rw [linkAuthor_none hfind]
      constructor
      · rw [addAuthorLink_authors]
      · exact addAuthorLink_link_mem _ doi db.nextAuthorId

theorem lookup_or_create_reuses_ids_witness :
    ∃ row ∈ dbEx1.keywords, row ∉ emptyDB.keywords ∧ row.keyword = lowerStr "AI" ∧
      ArticleKeyword.mk "10.1/x" row.id ∈ dbEx1.articleKeywords :=
  ((lookup_or_create_reuses_ids.1 emptyDB paperEx1 dbEx1 inv_empty
      (show insertPaper emptyDB paperEx1 = .ok dbEx1 by decide)).2.2 "AI"
      (by decide)).2 (by decide)

end DBTut
